import Mathlib

/-!
Verification of the implayer playback engine (`src/player.rs`, volume mapping in
`src/app.rs`) against its specification.

Shallow embedding choices:
* The `f64` values occurring in the time conversion are nonnegative dyadic
  rationals `m * 2^e` with a 53-bit significand; `fmul`/`fdiv` implement IEEE
  binary64 round-to-nearest, ties-to-even (the values involved stay far inside
  the normal range, so overflow/subnormal behaviour never triggers).  All
  arithmetic is on `ℕ`/`ℤ` so that concrete instances reduce in the kernel.
* `u64` arithmetic wraps modulo `2^64` (release-profile Rust semantics); the
  claims only exercise values far below the modulus.
* The engine thread of `run` is a step function on an explicit state.  The
  external collaborators (file probing, the symphonia reader/decoder, the audio
  sink) are oracles supplied per iteration; a failed `unwrap` on one of them is
  the distinguished outcome `panics`.
-/

/-- Fuel-driven base-2 logarithm: `log2fuel f n` is `⌊log₂ n⌋` whenever
`1 ≤ n < 2^f`.  Structural recursion on the fuel keeps it kernel-reducible. -/
def log2fuel : ℕ → ℕ → ℕ
  | 0, _ => 0
  | f + 1, n => if n < 2 then 0 else log2fuel f (n / 2) + 1

/-- Round-half-to-even division of naturals: the integer nearest `a / b`,
ties resolved to the even quotient (the rounding used by IEEE 754). -/
def rheDiv (a b : ℕ) : ℕ :=
  if 2 * (a % b) < b then a / b
  else if b < 2 * (a % b) then a / b + 1
  else if (a / b) % 2 = 0 then a / b else a / b + 1

/-- Binary exponent of the positive rational `n / d`:
`2 ^ qlog2 n d ≤ n / d < 2 ^ (qlog2 n d + 1)` (for `1 ≤ n, d < 2^128`). -/
def qlog2 (n d : ℕ) : ℤ :=
  let a := log2fuel 128 n
  let b := log2fuel 128 d
  if d * 2 ^ a ≤ n * 2 ^ b then (a : ℤ) - b else (a : ℤ) - b - 1

/-- Nonnegative binary64 value, represented exactly as `m * 2^e`.  The engine
only ever stores fractions in `[0, 1)`, so the sign bit is not modelled.  A
value produced by an IEEE operation satisfies `m ≤ 2^53`. -/
structure F where
  m : ℕ
  e : ℤ
  deriving DecidableEq

/-- Well-formedness of a binary64 value: the significand fits in 53 bits
(rounding may momentarily produce `2^53`, which is still exact). -/
def F.wf (x : F) : Prop := x.m ≤ 2 ^ 53

/-- Exact rational value of a binary64 number. -/
def F.val (x : F) : ℚ := (x.m : ℚ) * (2 : ℚ) ^ x.e

/-- Round the exact value `m * 2^e` to 53 significant bits, round to nearest,
ties to even — the IEEE binary64 rounding step (normal range). -/
def roundSig (m : ℕ) (e : ℤ) : F :=
  if m = 0 then ⟨0, 0⟩
  else
    let L := log2fuel 128 m
    if L ≤ 52 then ⟨m, e⟩
    else ⟨rheDiv m (2 ^ (L - 52)), e + (L - 52 : ℕ)⟩

/-- IEEE binary64 multiplication: exact product, then rounding. -/
def fmul (x y : F) : F := roundSig (x.m * y.m) (x.e + y.e)

/-- IEEE binary64 division (`y.m ≠ 0`): the exact quotient is bracketed by its
binary exponent `e0` and its significand is round-to-nearest-even of the
quotient scaled to 53 bits. -/
def fdiv (x y : F) : F :=
  if x.m = 0 then ⟨0, 0⟩
  else
    let e0 := qlog2 x.m y.m
    let s : ℤ := 52 - e0
    let mq := if 0 ≤ s then rheDiv (x.m * 2 ^ s.toNat) y.m
              else rheDiv x.m (y.m * 2 ^ (-s).toNat)
    ⟨mq, x.e - y.e + e0 - 52⟩

/-- Rust `as u64` applied to a nonnegative `f64`: truncation toward zero,
saturating at `u64::MAX`. -/
def f64toU64 (x : F) : ℕ :=
  let t := if 0 ≤ x.e then x.m * 2 ^ x.e.toNat else x.m / 2 ^ (-x.e).toNat
  min t (2 ^ 64 - 1)

/-- The `f64` literal `1000.0`. -/
def fThousand : F := ⟨1000, 0⟩

/-- The symphonia `Time` value: whole seconds (`u64`) plus a fractional
remainder (`f64`, kept in `[0, 1)` by the library). -/
structure Time where
  seconds : ℕ
  frac : F

/-- Embeds `time_to_ms` (player.rs:18-20):
`time.seconds * 1000 + (time.frac * 1000.0) as u64`, with wrapping `u64`
arithmetic. -/
def time_to_ms (t : Time) : ℕ :=
  (t.seconds * 1000 + f64toU64 (fmul t.frac fThousand)) % 2 ^ 64

/-- Embeds `ms_to_time` (player.rs:22-27):
`seconds = ms / 1000`, `frac = (ms % 1000) as f64 / 1000.0` (the `u64 → f64`
cast of a value below `1000` is exact). -/
def ms_to_time (ms : ℕ) : Time :=
  { seconds := ms / 1000, frac := fdiv ⟨ms % 1000, 0⟩ fThousand }

/-- Conversion as the specification words it (refinement comparison
definition, built from the spec, not from the source):
`to_ms(t) = t.seconds*1000 + round(t.frac*1000)` with rounding to the nearest
millisecond of the exact fractional value. -/
def spec_to_ms (t : Time) : ℕ :=
  t.seconds * 1000 + (round (F.val t.frac * 1000)).toNat

/-- Control actions of the engine (player.rs:58-65).  Track paths are
abstracted to identifiers; the volume multiplier is the exact value of the
`f32` sent by the caller. -/
inductive PlayerAction where
  | play (track : ℕ)
  | pause
  | resume
  | stop
  | seek (ms : ℕ)
  | setVolume (v : ℚ)

/-- Discriminates the `Play` constructor. -/
def PlayerAction.isPlay : PlayerAction → Bool
  | .play _ => true
  | _ => false

/-- The per-track `PlayerState` (player.rs:72-77): reader, decoder and time
base are owned by the session; `audioOutput` mirrors the lazily filled
`Option<Box<dyn AudioOutput>>`, recording the `(spec, capacity)` hint the sink
was opened with. -/
structure Session where
  track : ℕ
  audioOutput : Option (ℕ × ℕ)

/-- State of the engine thread between loop iterations (player.rs:79-81 plus
the shared cells): the optional session, the `is_playing` flag, the current
volume multiplier, the shared position cell, and the number of completion
notifications sent so far on `song_ended_tx`. -/
structure EngineState where
  session : Option Session
  isPlaying : Bool
  volume : ℚ
  position : ℕ
  sent : ℕ

/-- Condition of the control channel when the engine samples it. -/
inductive RecvResult where
  | action (a : PlayerAction)
  | empty
  | closed

/-- Outcome of `decoder.decode(&packet)` (player.rs:184-207): success (with
the signal spec and capacity of the decoded buffer), a recoverable
`DecodeError`, or any other (fatal) error. -/
inductive DecodeResult where
  | ok (spec capacity : ℕ)
  | recoverable
  | fatal

/-- Results supplied by the external collaborators during one iteration:
whether the `Play` open/probe/decoder unwraps succeed, the `reader.seek`
result, the `next_packet` result, the millisecond position of the read packet
(`time_to_ms(time_base.calc_time(packet.ts()))`, composed through the external
symphonia time base), the decode outcome, and the sink open/write results. -/
structure IterEnv where
  openOk : Bool
  seekOk : Bool
  readOk : Bool
  packetMs : ℕ
  decode : DecodeResult
  sinkOpenOk : Bool
  writeOk : Bool

/-- Result of one loop iteration: continue with a new state, return normally
(channel closed while blocked), or abort the thread on a failed `unwrap`. -/
inductive StepResult where
  | next (s : EngineState)
  | halt
  | panics

/-- Action intake (player.rs:84-94): `try_recv` when playing (an error yields
no action), blocking `recv` otherwise (a closed channel returns from `run`; an
empty channel blocks, modelled as an iteration that leaves the state
unchanged). -/
inductive Intake where
  | proceed (a : Option PlayerAction)
  | blocked
  | halted

/-- Samples the control channel according to the playing flag. -/
def intake (playing : Bool) : RecvResult → Intake
  | .action a => .proceed (some a)
  | .empty => if playing then .proceed none else .blocked
  | .closed => if playing then .proceed none else .halted

/-- Applies one received action (player.rs:96-166).  `none` means a failed
`unwrap` (file open/probe/decoder creation on `Play`, or `reader.seek` on
`Seek`) aborted the thread. -/
def applyAction (s : EngineState) (env : IterEnv) :
    Option PlayerAction → Option EngineState
  | some (.play t) =>
      if env.openOk then
        some { s with session := some { track := t, audioOutput := none },
                      isPlaying := true }
      else none
  | some .pause => some (if s.session.isSome then { s with isPlaying := false } else s)
  | some .resume => some (if s.session.isSome then { s with isPlaying := true } else s)
  | some .stop => some { s with session := none, isPlaying := false }
  | some (.seek _) =>
      if s.session.isSome then (if env.seekOk then some s else none) else some s
  | some (.setVolume v) => some { s with volume := v }
  | none => some s

/-- Decode/produce phase of one iteration (player.rs:168-207): guard, packet
read (any error tears the session down and sends one completion
notification), decode, lazy sink opening, position publication, sink write. -/
def decodeStep (s : EngineState) (env : IterEnv) : StepResult :=
  match s.session with
  | none => .next s
  | some sess =>
    if !s.isPlaying then .next s
    else if !env.readOk then
      .next { s with session := none, isPlaying := false, sent := s.sent + 1 }
    else
      match env.decode with
      | .ok spec capacity =>
          match sess.audioOutput with
          | some _ =>
              if env.writeOk then .next { s with position := env.packetMs }
              else .panics
          | none =>
              if env.sinkOpenOk then
                if env.writeOk then
                  .next { s with
                    session := some { sess with audioOutput := some (spec, capacity) },
                    position := env.packetMs }
                else .panics
              else .panics
      | .recoverable => .next s
      | .fatal => .next { s with session := none, isPlaying := false, sent := s.sent + 1 }

/-- One full iteration of the `loop` in `run` (player.rs:83-208). -/
def step (s : EngineState) (recv : RecvResult) (env : IterEnv) : StepResult :=
  match intake s.isPlaying recv with
  | .halted => .halt
  | .blocked => .next s
  | .proceed act =>
    match applyAction s env act with
    | none => .panics
    | some s1 => decodeStep s1 env

/-- Runs a sequence of iterations, stopping at a normal return or a panic. -/
def runSteps (s : EngineState) : List (RecvResult × IterEnv) → StepResult
  | [] => .next s
  | (r, env) :: rest =>
    match step s r env with
    | .next s1 => runSteps s1 rest
    | .halt => .halt
    | .panics => .panics

/-- Initial engine state (player.rs:79-81): no session, not playing, volume
`0.93f32.powi(4)` (abstracted to its exact rational value), position cell as
created by the caller, no notification sent yet. -/
def initState (pos : ℕ) : EngineState :=
  { session := none, isPlaying := false, volume := (93 / 100 : ℚ) ^ 4,
    position := pos, sent := 0 }

/-- Minimum of the UI volume slider (`app.rs:1198`, the `f32` value `0.4`). -/
def sliderMin : ℚ := 2 / 5

/-- Volume multiplier the caller sends on a slider change (app.rs:1203-1211):
the slider minimum is hard-mapped to `0.0`, any other value `v` is sent as
`v.powi(4)`. -/
def volumeMessage (v : ℚ) : ℚ :=
  if v = sliderMin then 0 else v * (v * (v * v))

/-- Playing-implies-session invariant is preserved by the action phase. -/
theorem applyAction_playing_session {s s1 : EngineState} {env : IterEnv}
    {act : Option PlayerAction}
    (hInv : s.isPlaying = true → s.session.isSome = true)
    (h : applyAction s env act = some s1) :
    s1.isPlaying = true → s1.session.isSome = true := by
  match act with
  | none => simp [applyAction] at h; subst h; exact hInv
  | some (.play t) =>
      simp [applyAction] at h
      rcases h with ⟨_, h⟩
      subst h; simp
  | some .pause =>
      simp [applyAction] at h
      subst h
      by_cases hs : s.session.isSome = true
      · simp [hs]
      · have hp : s.isPlaying = false := by
          cases hp2 : s.isPlaying
          · rfl
          · exact absurd (hInv hp2) hs
        simp [hs, hp]
  | some .resume =>
      simp [applyAction] at h
      subst h
      by_cases hs : s.session.isSome = true
      · simp [hs]
      · have hp : s.isPlaying = false := by
          cases hp2 : s.isPlaying
          · rfl
          · exact absurd (hInv hp2) hs
        simp [hs, hp]
  | some .stop =>
      simp [applyAction] at h
      subst h; simp
  | some (.seek ms) =>
      simp [applyAction] at h
      by_cases hs : s.session.isSome = true <;> simp [hs] at h
      · rcases h with ⟨_, h⟩
        subst h; intro hp; exact hs
      · subst h; exact hInv
  | some (.setVolume v) =>
      simp [applyAction] at h
      subst h; exact hInv

/-- Playing-implies-session invariant is preserved by the decode phase. -/
theorem decodeStep_playing_session {s s1 : EngineState} {env : IterEnv}
    (hInv : s.isPlaying = true → s.session.isSome = true)
    (h : decodeStep s env = .next s1) :
    s1.isPlaying = true → s1.session.isSome = true := by
  rcases hsess : s.session with _ | sess <;> simp [decodeStep, hsess] at h
  · subst h; exact hInv
  · rcases hp : s.isPlaying <;> simp [hp] at h
    · subst h; intro hcontra; simp [hp] at hcontra
    · rcases hr : env.readOk <;> simp [hr] at h
      · subst h; simp
      · rcases hd : env.decode with ⟨sp, cap⟩ | _ | _ <;> simp [hd] at h
        · rcases ho : sess.audioOutput with _ | hint <;> simp [ho] at h
          · rcases hso : env.sinkOpenOk <;> simp [hso] at h
            rcases hw : env.writeOk <;> simp [hw] at h
            subst h; simp [hsess]
          · rcases hw : env.writeOk <;> simp [hw] at h
            subst h; simp [hsess]
        · subst h; intro hcontra; simp [hsess]
        · subst h; simp

/-- Playing-implies-session invariant is preserved by one full iteration. -/
theorem step_playing_session {s s1 : EngineState} {r : RecvResult} {env : IterEnv}
    (hInv : s.isPlaying = true → s.session.isSome = true)
    (h : step s r env = .next s1) :
    s1.isPlaying = true → s1.session.isSome = true := by
  unfold step at h
  rcases hin : intake s.isPlaying r with a | _ | _ <;> rw [hin] at h <;>
    simp at h
  · rcases ha : applyAction s env a with _ | s2 <;> rw [ha] at h <;> simp at h
    exact decodeStep_playing_session (applyAction_playing_session hInv ha) h
  · subst h; exact hInv

/-- Playing-implies-session invariant holds along any run. -/
theorem runSteps_playing_session {l : List (RecvResult × IterEnv)} :
    ∀ {s s' : EngineState},
      (s.isPlaying = true → s.session.isSome = true) →
      runSteps s l = .next s' →
      s'.isPlaying = true → s'.session.isSome = true := by
  induction l with
  | nil => intro s s' hInv h; simp [runSteps] at h; subst h; exact hInv
  | cons p rest ih =>
      intro s s' hInv h
      rcases p with ⟨r, env⟩
      simp only [runSteps] at h
      rcases hst : step s r env with s1 | _ | _ <;> rw [hst] at h <;> simp at h
      exact ih (step_playing_session hInv hst) h

/-- C5: at every point between loop iterations reachable from the initial
state, the playing flag is true only if a session exists; at most one session
exists by construction (the state holds one `Option Session`). -/
theorem playing_implies_session :
    ∀ (pos : ℕ) (l : List (RecvResult × IterEnv)) (s' : EngineState),
      runSteps (initState pos) l = .next s' →
      s'.isPlaying = true → s'.session.isSome = true := by
  intro pos l s' h
  exact runSteps_playing_session (by intro hp; simp [initState] at hp) h

/-- Witness for C5: a run consisting of one `Play` that decodes successfully
ends playing with a live session. -/
theorem playing_implies_session_witness :
    (EngineState.session
      ⟨some ⟨7, some (2, 3)⟩, true, (93 / 100 : ℚ) ^ 4, 42, 0⟩).isSome = true :=
  playing_implies_session 5
    [(.action (.play 7), ⟨true, true, true, 42, .ok 2 3, true, true⟩)]
    ⟨some ⟨7, some (2, 3)⟩, true, (93 / 100 : ℚ) ^ 4, 42, 0⟩ rfl rfl

/-- C3: processing `Stop` destroys any session and clears the playing flag
without sending on the completion channel, while an end-of-stream or
unrecoverable read error in the decode loop destroys the session, clears the
playing flag, and sends exactly one completion notification before the loop
restarts. -/
theorem stop_silent_eos_signals_once :
    (∀ (s : EngineState) (env : IterEnv),
        step s (.action .stop) env =
          .next { s with session := none, isPlaying := false }) ∧
    (∀ (s : EngineState) (env : IterEnv),
        s.session.isSome = true → s.isPlaying = true → env.readOk = false →
        step s .empty env =
          .next { s with session := none, isPlaying := false,
                         sent := s.sent + 1 }) := by
  constructor
  · intro s env
    rfl
  · intro s env hsess hplay hread
    rcases hs : s.session with _ | sess
    · simp [hs] at hsess
    · simp [step, intake, hplay, applyAction, decodeStep, hs, hread]

/-- Witness for C3: a playing session hitting end-of-stream tears down and
sends one notification. -/
theorem stop_silent_eos_signals_once_witness :
    step ⟨some ⟨1, none⟩, true, 1, 5, 0⟩ .empty
        ⟨true, true, false, 0, .fatal, true, true⟩ =
      .next ⟨none, false, 1, 5, 1⟩ :=
  stop_silent_eos_signals_once.2 ⟨some ⟨1, none⟩, true, 1, 5, 0⟩
    ⟨true, true, false, 0, .fatal, true, true⟩ rfl rfl rfl

/-- C7: a recoverable decode error (malformed frame) leaves the whole engine
state unchanged — session kept, playing flag still true, nothing sent on the
completion channel, position not updated — and the loop proceeds. -/
theorem recoverable_decode_skips_frame_only :
    ∀ (s : EngineState) (c : Session) (env : IterEnv),
      s.session = some c → s.isPlaying = true →
      env.readOk = true → env.decode = .recoverable →
      step s .empty env = .next s := by
  intro s c env hs hplay hread hdec
  simp [step, intake, hplay, applyAction, decodeStep, hs, hread, hdec]

/-- Witness for C7: a concrete malformed frame is skipped with the state
intact. -/
theorem recoverable_decode_skips_frame_only_witness :
    step ⟨some ⟨1, some (2, 3)⟩, true, 1, 9, 0⟩ .empty
        ⟨true, true, true, 77, .recoverable, true, true⟩ =
      .next ⟨some ⟨1, some (2, 3)⟩, true, 1, 9, 0⟩ :=
  recoverable_decode_skips_frame_only ⟨some ⟨1, some (2, 3)⟩, true, 1, 9, 0⟩
    ⟨1, some (2, 3)⟩ ⟨true, true, true, 77, .recoverable, true, true⟩
    rfl rfl rfl rfl

/-- C9: when a session exists and the reader's seek fails, processing `Seek`
panics (the engine thread aborts via `unwrap`); without a session, `Seek` is a
no-op. -/
theorem seek_error_panics :
    (∀ (s : EngineState) (env : IterEnv) (ms : ℕ),
        s.session.isSome = true → env.seekOk = false →
        step s (.action (.seek ms)) env = .panics) ∧
    (∀ (s : EngineState) (env : IterEnv) (ms : ℕ),
        s.session = none → step s (.action (.seek ms)) env = .next s) := by
  constructor
  · intro s env ms hsess hseek
    simp [step, intake, applyAction, hsess, hseek]
  · intro s env ms hsess
    simp [step, intake, applyAction, decodeStep, hsess]

/-- Witness for C9: a failing seek on a live session panics; the same action
is a no-op while idle. -/
theorem seek_error_panics_witness :
    step ⟨some ⟨4, none⟩, true, 1, 0, 0⟩ (.action (.seek 500))
        ⟨true, false, true, 0, .fatal, true, true⟩ = .panics :=
  seek_error_panics.1 ⟨some ⟨4, none⟩, true, 1, 0, 0⟩
    ⟨true, false, true, 0, .fatal, true, true⟩ 500 rfl rfl

/-- C4: any sequence of non-`Play` actions processed while Idle leaves the
engine Idle: no session is created, the playing flag stays false, no decoding
occurs, and the shared position cell (and the completion counter) is never
written. -/
theorem idle_non_play_preserves_idle :
    ∀ (l : List (PlayerAction × IterEnv)) (s : EngineState),
      s.session = none → s.isPlaying = false →
      (∀ p ∈ l, p.1.isPlay = false) →
      ∃ s', runSteps s (l.map fun p => (RecvResult.action p.1, p.2)) = .next s' ∧
        s'.session = none ∧ s'.isPlaying = false ∧
        s'.position = s.position ∧ s'.sent = s.sent := by
  intro l
  induction l with
  | nil =>
      intro s hs hp _
      exact ⟨s, rfl, hs, hp, rfl, rfl⟩
  | cons p rest ih =>
      intro s hs hp hnp
      rcases p with ⟨a, env⟩
      have hsome : s.session.isSome = false := by simp [hs]
      have hstep : ∃ s1, step s (.action a) env = .next s1 ∧
          s1.session = none ∧ s1.isPlaying = false ∧
          s1.position = s.position ∧ s1.sent = s.sent := by
        cases a with
        | play t => exact absurd (hnp (.play t, env) (by simp)) (by simp [PlayerAction.isPlay])
        | pause =>
            refine ⟨s, ?_, hs, hp, rfl, rfl⟩
            simp [step, intake, hp, applyAction, decodeStep, hsome, hs]
        | resume =>
            refine ⟨s, ?_, hs, hp, rfl, rfl⟩
            simp [step, intake, hp, applyAction, decodeStep, hsome, hs]
        | stop =>
            refine ⟨{ s with session := none, isPlaying := false }, ?_, rfl, rfl, rfl, rfl⟩
            simp [step, intake, hp, applyAction, decodeStep]
        | seek ms =>
            refine ⟨s, ?_, hs, hp, rfl, rfl⟩
            simp [step, intake, hp, applyAction, decodeStep, hsome, hs]
        | setVolume v =>
            refine ⟨{ s with volume := v }, ?_, hs, hp, rfl, rfl⟩
            simp [step, intake, hp, applyAction, decodeStep, hs]
      rcases hstep with ⟨s1, hstep, hs1, hp1, hpos1, hsent1⟩
      have hnp' : ∀ p ∈ rest, PlayerAction.isPlay p.1 = false := by
        intro q hq
        exact hnp q (by simp [hq])
      rcases ih s1 hs1 hp1 hnp' with ⟨s', hrun, hs', hp', hpos', hsent'⟩
      refine ⟨s', ?_, hs', hp', by rw [hpos', hpos1], by rw [hsent', hsent1]⟩
      simp only [List.map, runSteps, hstep]
      exact hrun

/-- Witness for C4: pause, volume change, seek and stop while Idle leave the
engine Idle with the position cell untouched. -/
theorem idle_non_play_preserves_idle_witness :
    ∃ s', runSteps (initState 5)
        ([((PlayerAction.pause : PlayerAction), (⟨true, true, true, 0, .fatal, true, true⟩ : IterEnv)),
          (.setVolume (1 / 2), ⟨true, true, true, 0, .fatal, true, true⟩),
          (.seek 3, ⟨true, true, true, 0, .fatal, true, true⟩),
          (.stop, ⟨true, true, true, 0, .fatal, true, true⟩)].map
            fun p => (RecvResult.action p.1, p.2)) = .next s' ∧
      s'.session = none ∧ s'.isPlaying = false ∧
      s'.position = (initState 5).position ∧ s'.sent = (initState 5).sent :=
  idle_non_play_preserves_idle _ (initState 5) rfl rfl
    (by intro p hp; fin_cases hp <;> rfl)

/-- C6: the audio output sink is opened lazily: the action phase never opens
one (a fresh `Play` session starts with no sink), and a session whose sink is
closed acquires one in an iteration only when that iteration's decode
succeeds, in which case it is opened with the spec and capacity of the decoded
buffer. -/
theorem sink_opened_only_on_first_decode :
    (∀ (s : EngineState) (env : IterEnv) (act : Option PlayerAction)
        (s1 : EngineState) (c1 : Session),
        applyAction s env act = some s1 → s1.session = some c1 →
        c1.audioOutput ≠ none →
        ∃ c, s.session = some c ∧ c.audioOutput = c1.audioOutput) ∧
    (∀ (s : EngineState) (c : Session) (env : IterEnv)
        (s' : EngineState) (c' : Session),
        s.session = some c → c.audioOutput = none →
        decodeStep s env = .next s' → s'.session = some c' →
        c'.audioOutput ≠ none →
        ∃ spec capacity, env.decode = .ok spec capacity ∧
          c'.audioOutput = some (spec, capacity)) := by
  constructor
  · intro s env act s1 c1 h hs1 hout
    match act with
    | none =>
        simp [applyAction] at h
        subst h
        exact ⟨c1, hs1, rfl⟩
    | some (.play t) =>
        simp [applyAction] at h
        rcases h with ⟨_, h⟩
        subst h
        simp at hs1
        simp [← hs1] at hout
    | some .pause =>
        simp [applyAction] at h
        subst h
        by_cases hsome : s.session.isSome = true <;> simp [hsome] at hs1 <;>
          exact ⟨c1, hs1, rfl⟩
    | some .resume =>
        simp [applyAction] at h
        subst h
        by_cases hsome : s.session.isSome = true <;> simp [hsome] at hs1 <;>
          exact ⟨c1, hs1, rfl⟩
    | some .stop =>
        simp [applyAction] at h
        subst h
        simp at hs1
    | some (.seek ms) =>
        simp [applyAction] at h
        by_cases hsome : s.session.isSome = true <;> simp [hsome] at h
        · rcases h with ⟨_, h⟩
          subst h
          exact ⟨c1, hs1, rfl⟩
        · subst h
          exact ⟨c1, hs1, rfl⟩
    | some (.setVolume v) =>
        simp [applyAction] at h
        subst h
        exact ⟨c1, hs1, rfl⟩
  · intro s c env s' c' hs hout h hs' hout'
    simp [decodeStep, hs] at h
    rcases hp : s.isPlaying <;> simp [hp] at h
    · subst h
      rw [hs] at hs'
      simp at hs'
      rw [← hs'] at hout'
      exact absurd hout hout'
    · rcases hr : env.readOk <;> simp [hr] at h
      · subst h
        simp at hs'
      · rcases hd : env.decode with ⟨sp, cap⟩ | _ | _ <;> simp [hd] at h
        · simp [hout] at h
          rcases hso : env.sinkOpenOk <;> simp [hso] at h
          rcases hw : env.writeOk <;> simp [hw] at h
          subst h
          simp at hs'
          rw [← hs']
          exact ⟨sp, cap, rfl, rfl⟩
        · subst h
          rw [hs] at hs'
          simp at hs'
          rw [← hs'] at hout'
          exact absurd hout hout'
        · subst h
          simp at hs'

/-- Witness for C6: a closed sink opens on a successful decode with the
decoded buffer's spec and capacity. -/
theorem sink_opened_only_on_first_decode_witness :
    ∃ spec capacity,
      (⟨true, true, true, 42, .ok 2 3, true, true⟩ : IterEnv).decode = .ok spec capacity ∧
      (some (2, 3) : Option (ℕ × ℕ)) = some (spec, capacity) :=
  sink_opened_only_on_first_decode.2
    ⟨some ⟨7, none⟩, true, 1, 0, 0⟩ ⟨7, none⟩
    ⟨true, true, true, 42, .ok 2 3, true, true⟩
    ⟨some ⟨7, some (2, 3)⟩, true, 1, 42, 0⟩ ⟨7, some (2, 3)⟩
    rfl rfl rfl rfl (by simp)

/-- C10: neither `Stop` nor `Play` writes the shared position cell: a `Stop`
iteration leaves it frozen, and a `Play` iteration leaves the previous
track's position in place unless that same iteration already decodes the new
track's first packet successfully, in which case the cell receives that
packet's position. -/
theorem stop_play_never_write_position :
    (∀ (s : EngineState) (env : IterEnv) (s' : EngineState),
        step s (.action .stop) env = .next s' → s'.position = s.position) ∧
    (∀ (s : EngineState) (env : IterEnv) (t : ℕ) (s' : EngineState),
        step s (.action (.play t)) env = .next s' →
        ((env.readOk = true ∧ ∃ sp cap, env.decode = .ok sp cap) →
            s'.position = env.packetMs) ∧
        (¬(env.readOk = true ∧ ∃ sp cap, env.decode = .ok sp cap) →
            s'.position = s.position)) := by
  constructor
  · intro s env s' h
    simp [step, intake, applyAction, decodeStep] at h
    rw [← h]
  · intro s env t s' h
    simp [step, intake, applyAction] at h
    rcases ho : env.openOk <;> rw [ho] at h <;> simp at h
    rcases hr : env.readOk <;>
      simp [decodeStep, hr] at h
    · rw [← h]
      exact ⟨fun hc => by simp at hc, fun _ => rfl⟩
    · rcases hd : env.decode with ⟨sp, cap⟩ | _ | _ <;> simp [hd] at h
      · rcases hso : env.sinkOpenOk <;> simp [hso] at h
        rcases hw : env.writeOk <;> simp [hw] at h
        rw [← h]
        exact ⟨fun _ => rfl, fun hc => absurd ⟨rfl, sp, cap, rfl⟩ hc⟩
      · rw [← h]
        exact ⟨fun hc => by rcases hc with ⟨_, _, _, hc⟩; simp at hc, fun _ => rfl⟩
      · rw [← h]
        exact ⟨fun hc => by rcases hc with ⟨_, _, _, hc⟩; simp at hc, fun _ => rfl⟩

/-- Witness for C10: a `Stop` iteration leaves the position cell at its old
value. -/
theorem stop_play_never_write_position_witness :
    (⟨none, false, 1, 33, 0⟩ : EngineState).position =
      (⟨some ⟨1, none⟩, true, 1, 33, 0⟩ : EngineState).position :=
  stop_play_never_write_position.1 ⟨some ⟨1, none⟩, true, 1, 33, 0⟩
    ⟨true, true, true, 0, .fatal, true, true⟩ ⟨none, false, 1, 33, 0⟩ rfl

/-- C8: the caller-side volume mapping sends the engine the multiplier `v^4`
for every slider value `v` except the slider minimum, which is hard-mapped to
exactly `0`. -/
theorem volume_curve_quartic_with_zero_floor :
    volumeMessage sliderMin = 0 ∧
    ∀ v : ℚ, v ≠ sliderMin → volumeMessage v = v ^ 4 := by
  constructor
  · simp [volumeMessage]
  · intro v hv
    simp only [volumeMessage, hv, if_false]
    ring

/-- Witness for C8: a non-minimum slider value is sent as its fourth power. -/
theorem volume_curve_quartic_with_zero_floor_witness :
    volumeMessage 1 = (1 : ℚ) ^ 4 :=
  volume_curve_quartic_with_zero_floor.2 1 (by norm_num [sliderMin])

/-- Correctness of the fuel-driven logarithm on its intended domain. -/
theorem log2fuel_spec : ∀ (f n : ℕ), 0 < n → n < 2 ^ f →
    2 ^ log2fuel f n ≤ n ∧ n < 2 ^ (log2fuel f n + 1) := by
  intro f
  induction f with
  | zero =>
      intro n h1 h2
      simp at h2
      omega
  | succ f ih =>
      intro n h1 h2
      by_cases hn : n < 2
      · simp [log2fuel, hn]
        omega
      · have h3 : 0 < n / 2 := by omega
        have h4 : n / 2 < 2 ^ f := by
          rw [pow_succ] at h2
          omega
        obtain ⟨hl, hu⟩ := ih (n / 2) h3 h4
        simp only [log2fuel, if_neg hn]
        have e1 : 2 ^ (log2fuel f (n / 2) + 1) = 2 * 2 ^ log2fuel f (n / 2) := by ring
        have e2 : 2 ^ (log2fuel f (n / 2) + 1 + 1) = 4 * 2 ^ log2fuel f (n / 2) := by ring
        omega

/-- Round-half-even division differs from the exact quotient by at most one
half. -/
theorem rheDiv_bounds {a b : ℕ} (hb : 0 < b) :
    (a : ℚ) / b - 1 / 2 ≤ (rheDiv a b : ℚ) ∧
    (rheDiv a b : ℚ) ≤ (a : ℚ) / b + 1 / 2 := by
  have hbq : (0 : ℚ) < (b : ℚ) := by exact_mod_cast hb
  have hrb : a % b < b := Nat.mod_lt a hb
  have haq : (a : ℚ) = (b : ℚ) * ((a / b : ℕ) : ℚ) + ((a % b : ℕ) : ℚ) := by
    exact_mod_cast (Nat.div_add_mod a b).symm
  have haDiv : (a : ℚ) / b = ((a / b : ℕ) : ℚ) + ((a % b : ℕ) : ℚ) / b := by
    field_simp
    linarith
  have hr0 : (0 : ℚ) ≤ ((a % b : ℕ) : ℚ) := Nat.cast_nonneg _
  have hr1 : ((a % b : ℕ) : ℚ) < b := by exact_mod_cast hrb
  unfold rheDiv
  split_ifs with h1 h2 h3
  · have hcast : 2 * ((a % b : ℕ) : ℚ) < b := by exact_mod_cast h1
    have hfr : ((a % b : ℕ) : ℚ) / b < 1 / 2 := by
      rw [div_lt_iff hbq]
      linarith
    have hfr0 : (0 : ℚ) ≤ ((a % b : ℕ) : ℚ) / b := by positivity
    rw [haDiv]
    constructor <;> linarith
  · have hcast : (b : ℚ) < 2 * ((a % b : ℕ) : ℚ) := by exact_mod_cast h2
    have hfr : (1 : ℚ) / 2 < ((a % b : ℕ) : ℚ) / b := by
      rw [lt_div_iff hbq]
      linarith
    have hfr1 : ((a % b : ℕ) : ℚ) / b < 1 := by
      rw [div_lt_one hbq]
      exact hr1
    rw [haDiv]
    push_cast
    constructor <;> linarith
  · have heq : 2 * (a % b) = b := by omega
    have hfr : ((a % b : ℕ) : ℚ) / b = 1 / 2 := by
      rw [div_eq_iff (ne_of_gt hbq)]
      have : ((2 * (a % b) : ℕ) : ℚ) = (b : ℚ) := by exact_mod_cast congrArg Nat.cast heq
      push_cast at this
      linarith
    rw [haDiv]
    constructor <;> linarith
  · have heq : 2 * (a % b) = b := by omega
    have hfr : ((a % b : ℕ) : ℚ) / b = 1 / 2 := by
      rw [div_eq_iff (ne_of_gt hbq)]
      have : ((2 * (a % b) : ℕ) : ℚ) = (b : ℚ) := by exact_mod_cast congrArg Nat.cast heq
      push_cast at this
      linarith
    rw [haDiv]
    push_cast
    constructor <;> linarith

/-- Value of any modelled binary64 number is nonnegative. -/
theorem val_nonneg (x : F) : 0 ≤ x.val := by
  unfold F.val
  positivity

/-- Correctness of `qlog2`: it brackets the quotient between consecutive
powers of two. -/
theorem qlog2_spec {n d : ℕ} (hn : 0 < n) (hd : 0 < d)
    (hn2 : n < 2 ^ 128) (hd2 : d < 2 ^ 128) :
    (2 : ℚ) ^ qlog2 n d ≤ (n : ℚ) / d ∧
    (n : ℚ) / d < (2 : ℚ) ^ (qlog2 n d + 1) := by
  obtain ⟨han, hbn⟩ := log2fuel_spec 128 n hn hn2
  obtain ⟨had, hbd⟩ := log2fuel_spec 128 d hd hd2
  unfold qlog2
  set a := log2fuel 128 n with ha
  set b := log2fuel 128 d with hb
  have hdq : (0 : ℚ) < (d : ℚ) := by exact_mod_cast hd
  have h2 : (0 : ℚ) < 2 := by norm_num
  have h2ne : (2 : ℚ) ≠ 0 := by norm_num
  by_cases hcmp : d * 2 ^ a ≤ n * 2 ^ b
  · rw [if_pos hcmp]
    have hcmpq : (d : ℚ) * 2 ^ a ≤ (n : ℚ) * 2 ^ b := by exact_mod_cast hcmp
    constructor
    · rw [zpow_sub₀ h2ne, div_le_div_iff (zpow_pos h2 _) hdq,
        zpow_natCast, zpow_natCast]
      linarith
    · have hexp : (a : ℤ) - b + 1 = ((a + 1 : ℕ) : ℤ) - (b : ℤ) := by push_cast; ring
      rw [hexp, zpow_sub₀ h2ne, div_lt_div_iff hdq (zpow_pos h2 _),
        zpow_natCast, zpow_natCast]
      have hnat : n * 2 ^ b < 2 ^ (a + 1) * d := by
        calc n * 2 ^ b < 2 ^ (a + 1) * 2 ^ b :=
              (Nat.mul_lt_mul_right (Nat.pos_pow_of_pos b (by norm_num))).mpr hbn
          _ ≤ 2 ^ (a + 1) * d := Nat.mul_le_mul_left _ had
      exact_mod_cast hnat
  · rw [if_neg hcmp]
    push_neg at hcmp
    have hcmpq : (n : ℚ) * 2 ^ b < (d : ℚ) * 2 ^ a := by exact_mod_cast hcmp
    constructor
    · have hexp : (a : ℤ) - b - 1 = (a : ℤ) - ((b + 1 : ℕ) : ℤ) := by push_cast; ring
      rw [hexp, zpow_sub₀ h2ne, div_le_div_iff (zpow_pos h2 _) hdq,
        zpow_natCast, zpow_natCast]
      have hnat : 2 ^ a * d ≤ n * 2 ^ (b + 1) :=
        Nat.mul_le_mul han (le_of_lt hbd)
      exact_mod_cast hnat
    · have hexp : (a : ℤ) - b - 1 + 1 = (a : ℤ) - b := by ring
      rw [hexp, zpow_sub₀ h2ne, div_lt_div_iff hdq (zpow_pos h2 _),
        zpow_natCast, zpow_natCast]
      linarith

/-- The 53-bit rounding step at most doubles the value (a crude but
sufficient bound: the relative error is in fact below `2^-52`). -/
theorem roundSig_val_le (m : ℕ) (e : ℤ) (hm : m < 2 ^ 128) :
    (roundSig m e).val ≤ 2 * ((m : ℚ) * (2 : ℚ) ^ e) := by
  have h2 : (0 : ℚ) < 2 := by norm_num
  by_cases h0 : m = 0
  · subst h0
    simp [roundSig, F.val]
  · unfold roundSig
    rw [if_neg h0]
    simp only
    obtain ⟨hl, _⟩ := log2fuel_spec 128 m (Nat.pos_of_ne_zero h0) hm
    set L := log2fuel 128 m with hLdef
    by_cases hle : L ≤ 52
    · rw [if_pos hle]
      unfold F.val
      have : (0 : ℚ) ≤ (m : ℚ) * 2 ^ e := by positivity
      linarith
    · rw [if_neg hle]
      unfold F.val
      simp only
      set k := L - 52 with hk
      have hkL : k ≤ L := by omega
      have hTpos : (0 : ℚ) < ((2 ^ k : ℕ) : ℚ) := by positivity
      have hTm : ((2 ^ k : ℕ) : ℚ) ≤ (m : ℚ) := by
        exact_mod_cast le_trans (Nat.pow_le_pow_right (by norm_num) hkL) hl
      obtain ⟨_, hup⟩ := rheDiv_bounds (a := m) (b := 2 ^ k) (Nat.pos_pow_of_pos k (by norm_num))
      have hPpos : (0 : ℚ) < (2 : ℚ) ^ e := zpow_pos h2 _
      have hzsplit : (2 : ℚ) ^ (e + (k : ℕ)) = (2 : ℚ) ^ e * ((2 ^ k : ℕ) : ℚ) := by
        rw [zpow_add₀ (by norm_num : (2 : ℚ) ≠ 0)]
        congr 1
        rw [zpow_natCast]
        push_cast
        ring
      rw [hzsplit]
      have hRT : (rheDiv m (2 ^ k) : ℚ) * ((2 ^ k : ℕ) : ℚ) ≤ 2 * m := by
        have step1 : (rheDiv m (2 ^ k) : ℚ) * ((2 ^ k : ℕ) : ℚ) ≤
            ((m : ℚ) / ((2 ^ k : ℕ) : ℚ) + 1 / 2) * ((2 ^ k : ℕ) : ℚ) :=
          mul_le_mul_of_nonneg_right hup hTpos.le
        have step2 : ((m : ℚ) / ((2 ^ k : ℕ) : ℚ) + 1 / 2) * ((2 ^ k : ℕ) : ℚ) =
            (m : ℚ) + ((2 ^ k : ℕ) : ℚ) / 2 := by
          field_simp
          ring
        linarith
      calc (rheDiv m (2 ^ k) : ℚ) * ((2 : ℚ) ^ e * ((2 ^ k : ℕ) : ℚ))
          = ((rheDiv m (2 ^ k) : ℚ) * ((2 ^ k : ℕ) : ℚ)) * (2 : ℚ) ^ e := by ring
        _ ≤ (2 * m) * (2 : ℚ) ^ e := mul_le_mul_of_nonneg_right hRT hPpos.le
        _ = 2 * ((m : ℚ) * (2 : ℚ) ^ e) := by ring

/-- The `as u64` cast computes the floor of the value as long as it does not
saturate. -/
theorem f64toU64_eq_floor (x : F) (hx : x.val < 2 ^ 64 - 1) :
    f64toU64 x = (⌊x.val⌋).toNat := by
  unfold f64toU64 F.val at *
  by_cases he : 0 ≤ x.e
  · simp only [if_pos he]
    have hval : (x.m : ℚ) * (2 : ℚ) ^ x.e = ((x.m * 2 ^ x.e.toNat : ℕ) : ℚ) := by
      push_cast
      rw [← zpow_natCast (2 : ℚ) x.e.toNat, Int.toNat_of_nonneg he]
    rw [hval] at hx ⊢
    rw [Int.floor_natCast, Int.toNat_natCast]
    have hlt : (x.m * 2 ^ x.e.toNat : ℕ) < 2 ^ 64 - 1 := by
      by_contra hcon
      push_neg at hcon
      have hq : ((2 ^ 64 - 1 : ℕ) : ℚ) ≤ ((x.m * 2 ^ x.e.toNat : ℕ) : ℚ) := by
        exact_mod_cast hcon
      have hlit : ((2 ^ 64 - 1 : ℕ) : ℚ) = 2 ^ 64 - 1 := by norm_num
      linarith
    exact min_eq_left hlt.le
  · push_neg at he
    simp only [if_neg (not_le.mpr he)]
    have hval : (x.m : ℚ) * (2 : ℚ) ^ x.e =
        (x.m : ℚ) / ((2 ^ (-x.e).toNat : ℕ) : ℚ) := by
      have hk : (((-x.e).toNat : ℕ) : ℤ) = -x.e := Int.toNat_of_nonneg (by omega)
      have h1 : ((2 ^ (-x.e).toNat : ℕ) : ℚ) = (2 : ℚ) ^ (((-x.e).toNat : ℕ) : ℤ) := by
        push_cast
        rw [zpow_natCast]
      rw [h1, hk, div_eq_mul_inv, ← zpow_neg, neg_neg]
    rw [hval] at hx ⊢
    have hfl : ⌊(x.m : ℚ) / ((2 ^ (-x.e).toNat : ℕ) : ℚ)⌋ =
        ((x.m / 2 ^ (-x.e).toNat : ℕ) : ℤ) := by
      have h1 : ⌊((x.m : ℤ) : ℚ) / ((2 ^ (-x.e).toNat : ℕ) : ℚ)⌋ =
          (x.m : ℤ) / ((2 ^ (-x.e).toNat : ℕ) : ℤ) :=
        Rat.floor_intCast_div_natCast (x.m : ℤ) (2 ^ (-x.e).toNat)
      have h2 : ((x.m : ℤ) : ℚ) = (x.m : ℚ) := by push_cast; rfl
      rw [h2] at h1
      rw [h1]
      exact (Int.ofNat_ediv x.m (2 ^ (-x.e).toNat)).symm
    rw [hfl, Int.toNat_natCast]
    have hle2 : ((x.m / 2 ^ (-x.e).toNat : ℕ) : ℚ) ≤
        (x.m : ℚ) / ((2 ^ (-x.e).toNat : ℕ) : ℚ) := Nat.cast_div_le
    have hlt : (x.m / 2 ^ (-x.e).toNat : ℕ) < 2 ^ 64 - 1 := by
      by_contra hcon
      push_neg at hcon
      have hq : ((2 ^ 64 - 1 : ℕ) : ℚ) ≤ ((x.m / 2 ^ (-x.e).toNat : ℕ) : ℚ) := by
        exact_mod_cast hcon
      have hlit : ((2 ^ 64 - 1 : ℕ) : ℚ) = 2 ^ 64 - 1 := by norm_num
      linarith
    exact min_eq_left hlt.le

/-- The `f64` division performed by `ms_to_time` is correctly rounded: its
value differs from the exact quotient by at most `2^-53` (in fact `2^-54`). -/
theorem fdiv_thousand_err (r : ℕ) (hr : r < 1000) :
    |(fdiv ⟨r, 0⟩ fThousand).val - (r : ℚ) / 1000| ≤ (2 : ℚ) ^ (-(53 : ℤ)) := by
  have h2 : (0 : ℚ) < 2 := by norm_num
  by_cases h0 : r = 0
  · subst h0
    simp [fdiv, fThousand, F.val]
    positivity
  · obtain ⟨hlo, hhi⟩ := qlog2_spec (n := r) (d := 1000)
      (Nat.pos_of_ne_zero h0) (by norm_num)
      (lt_trans hr (by norm_num)) (by norm_num)
    set e0 := qlog2 r 1000 with he0def
    have hrlt : (r : ℚ) / 1000 < 1 := by
      rw [div_lt_one (by norm_num)]
      exact_mod_cast hr
    have he0neg : e0 < 0 := by
      by_contra hcon
      push_neg at hcon
      have h1 : (1 : ℚ) ≤ (2 : ℚ) ^ e0 := one_le_zpow_of_nonneg (by norm_num) hcon
      linarith
    have hs : (0 : ℤ) ≤ 52 - e0 := by omega
    have hbranch : fdiv ⟨r, 0⟩ fThousand =
        ⟨rheDiv (r * 2 ^ (52 - e0).toNat) 1000, e0 - 52⟩ := by
      simp only [fdiv, fThousand]
      rw [if_neg h0]
      simp only [← he0def]
      rw [if_pos hs]
      congr 1
      ring
    rw [hbranch]
    unfold F.val
    simp only
    set k := (52 - e0).toNat with hkdef
    have hkz : ((k : ℕ) : ℤ) = 52 - e0 := Int.toNat_of_nonneg hs
    set A := r * 2 ^ k with hA
    obtain ⟨hlo2, hup2⟩ := rheDiv_bounds (a := A) (b := 1000) (by norm_num)
    have hTpos : (0 : ℚ) < (2 : ℚ) ^ (e0 - 52) := zpow_pos h2 _
    have h2k : ((2 : ℚ) ^ (k : ℕ)) * (2 : ℚ) ^ (e0 - 52) = 1 := by
      rw [← zpow_natCast (2 : ℚ) k, ← zpow_add₀ (by norm_num : (2 : ℚ) ≠ 0), hkz]
      norm_num
    have hkey : ((A : ℕ) : ℚ) / 1000 * (2 : ℚ) ^ (e0 - 52) = (r : ℚ) / 1000 := by
      rw [hA]
      push_cast
      field_simp
      calc (r : ℚ) * 2 ^ k * (2 : ℚ) ^ (e0 - 52) =
            (r : ℚ) * ((2 : ℚ) ^ (k : ℕ) * (2 : ℚ) ^ (e0 - 52)) := by ring
        _ = (r : ℚ) := by rw [h2k]; ring
    have habs : |(rheDiv A 1000 : ℚ) * (2 : ℚ) ^ (e0 - 52) - (r : ℚ) / 1000| =
        |(rheDiv A 1000 : ℚ) - ((A : ℕ) : ℚ) / 1000| * (2 : ℚ) ^ (e0 - 52) := by
      rw [← hkey, ← sub_mul, abs_mul, abs_of_pos hTpos]
    rw [habs]
    have hhalf : |(rheDiv A 1000 : ℚ) - ((A : ℕ) : ℚ) / 1000| ≤ 1 / 2 :=
      abs_sub_le_iff.mpr ⟨by linarith, by linarith⟩
    calc |(rheDiv A 1000 : ℚ) - ((A : ℕ) : ℚ) / 1000| * (2 : ℚ) ^ (e0 - 52) ≤
          (1 / 2) * (2 : ℚ) ^ (e0 - 52) :=
        mul_le_mul_of_nonneg_right hhalf hTpos.le
      _ = (2 : ℚ) ^ (e0 - 53) := by
        rw [show (1 : ℚ) / 2 = (2 : ℚ) ^ (-(1 : ℤ)) by norm_num,
          ← zpow_add₀ (by norm_num : (2 : ℚ) ≠ 0)]
        congr 1
        ring
      _ ≤ (2 : ℚ) ^ (-(53 : ℤ)) := zpow_le_zpow_right₀ (by norm_num) (by omega)

set_option maxRecDepth 10000 in
set_option maxHeartbeats 4000000 in
/-- Key finite check: dividing any remainder below 1000 by `1000.0` and
multiplying back by `1000.0` in binary64, then truncating, recovers the
remainder exactly. -/
theorem frac_roundtrip_thousand :
    ∀ r < 1000, f64toU64 (fmul (fdiv ⟨r, 0⟩ fThousand) fThousand) = r := by
  decide

/-- C1: for every integer ms in `[0, 10,000,000)`, converting milliseconds to
a native rational timestamp and back (`time_to_ms (ms_to_time ms)`) yields
exactly ms. -/
theorem ms_roundtrip_exact :
    ∀ ms : ℕ, ms < 10000000 → time_to_ms (ms_to_time ms) = ms := by
  intro ms hms
  have hr := frac_roundtrip_thousand (ms % 1000) (Nat.mod_lt _ (by norm_num))
  show ((ms_to_time ms).seconds * 1000 +
      f64toU64 (fmul (ms_to_time ms).frac fThousand)) % 2 ^ 64 = ms
  have hsec : (ms_to_time ms).seconds = ms / 1000 := rfl
  have hfrac : (ms_to_time ms).frac = fdiv ⟨ms % 1000, 0⟩ fThousand := rfl
  rw [hsec, hfrac, hr, Nat.div_add_mod']
  have h64 : ms < 2 ^ 64 := lt_trans hms (by norm_num)
  exact Nat.mod_eq_of_lt h64

/-- Witness for C1: the round-trip at a concrete value. -/
theorem ms_roundtrip_exact_witness :
    time_to_ms (ms_to_time 123456) = 123456 :=
  ms_roundtrip_exact 123456 (by norm_num)

/-- Counterexample for C2: at the native timestamp `0 + 2^-10` seconds
(`frac = 1/1024`, an exactly representable `f64`), the code computes
`(0.0009765625 * 1000.0) as u64 = 0`, while the specified
nearest-millisecond rounding gives `round(0.9765625) = 1`. -/
theorem time_to_ms_truncates_cex :
    time_to_ms ⟨0, ⟨1, -10⟩⟩ = 0 ∧ spec_to_ms ⟨0, ⟨1, -10⟩⟩ = 1 := by
  constructor
  · decide
  · unfold spec_to_ms F.val
    simp only
    have hzp : ((2 : ℚ) ^ (-10 : ℤ)) = 1 / 1024 := by
      rw [show ((-10 : ℤ)) = -((10 : ℕ) : ℤ) by norm_num, zpow_neg, zpow_natCast]
      norm_num
    have hprod : ((1 : ℕ) : ℚ) * ((2 : ℚ) ^ (-10 : ℤ)) * 1000 = 125 / 128 := by
      rw [hzp]
      norm_num
    rw [hprod, round_eq, show (125 : ℚ) / 128 + 1 / 2 = 189 / 128 by norm_num]
    have hfl : ⌊(189 : ℚ) / 128⌋ = 1 := by
      rw [show (189 : ℚ) / 128 = (((189 : ℤ) : ℚ)) / (((128 : ℕ) : ℕ) : ℚ) by norm_num,
        Rat.floor_intCast_div_natCast]
      norm_num
    rw [hfl]
    norm_num

/-- C2 (amended): `to_ms` truncates the fractional milliseconds toward zero
instead of rounding to nearest: for every in-range timestamp,
`time_to_ms t = t.seconds * 1000 + ⌊t.frac ⊛ 1000⌋` where `⊛` is the binary64
multiplication; `to_native` is as specified, `seconds = ms / 1000` and
`frac` the correctly rounded binary64 quotient `(ms % 1000) / 1000.0`
(within `2^-53` of the exact value). -/
theorem time_conversion_truncation_semantics :
    (∀ t : Time, t.frac.wf → F.val t.frac < 1 → t.seconds < 2 ^ 53 →
        time_to_ms t = t.seconds * 1000 + (⌊F.val (fmul t.frac fThousand)⌋).toNat) ∧
    (∀ ms : ℕ, (ms_to_time ms).seconds = ms / 1000) ∧
    (∀ ms : ℕ,
        |F.val (ms_to_time ms).frac - ((ms % 1000 : ℕ) : ℚ) / 1000| ≤
          (2 : ℚ) ^ (-(53 : ℤ))) := by
  refine ⟨?_, fun ms => rfl, ?_⟩
  · intro t hwf hv hs
    have hm : t.frac.m * 1000 < 2 ^ 128 := by
      unfold F.wf at hwf
      have h1 : t.frac.m * 1000 ≤ 2 ^ 53 * 1000 := Nat.mul_le_mul_right 1000 hwf
      have h2 : (2 : ℕ) ^ 53 * 1000 < 2 ^ 128 := by norm_num
      omega
    have hsame : fmul t.frac fThousand = roundSig (t.frac.m * 1000) (t.frac.e + 0) := rfl
    have hfv : (fmul t.frac fThousand).val ≤ 2 * (t.frac.val * 1000) := by
      rw [hsame]
      have h := roundSig_val_le (t.frac.m * 1000) (t.frac.e + 0) hm
      have heq : 2 * (((t.frac.m * 1000 : ℕ) : ℚ) * (2 : ℚ) ^ (t.frac.e + 0)) =
          2 * (t.frac.val * 1000) := by
        unfold F.val
        rw [add_zero]
        push_cast
        ring
      rw [heq] at h
      exact h
    have hnn : 0 ≤ t.frac.val := val_nonneg t.frac
    have hub : (fmul t.frac fThousand).val < 2000 := by nlinarith
    have hlt : (fmul t.frac fThousand).val < 2 ^ 64 - 1 := by
      have hc : (2000 : ℚ) < 2 ^ 64 - 1 := by norm_num
      linarith
    show (t.seconds * 1000 + f64toU64 (fmul t.frac fThousand)) % 2 ^ 64 = _
    rw [f64toU64_eq_floor _ hlt]
    have hfl0 : 0 ≤ ⌊(fmul t.frac fThousand).val⌋ :=
      Int.floor_nonneg.mpr (val_nonneg _)
    have hflub : ⌊(fmul t.frac fThousand).val⌋ < 2000 := by
      by_contra hcon
      push_neg at hcon
      have h1 : ((2000 : ℤ) : ℚ) ≤ (⌊(fmul t.frac fThousand).val⌋ : ℚ) := by
        exact_mod_cast hcon
      have h2 := Int.floor_le (fmul t.frac fThousand).val
      have h3 : ((2000 : ℤ) : ℚ) = 2000 := by norm_num
      linarith
    have htn : (⌊(fmul t.frac fThousand).val⌋).toNat < 2000 := by omega
    apply Nat.mod_eq_of_lt
    have hs1000 : t.seconds * 1000 < 2 ^ 53 * 1000 :=
      (Nat.mul_lt_mul_right (by norm_num)).mpr hs
    have hbig : (2 : ℕ) ^ 53 * 1000 + 2000 ≤ 2 ^ 64 := by norm_num
    omega
  · intro ms
    have hfrac : (ms_to_time ms).frac = fdiv ⟨ms % 1000, 0⟩ fThousand := rfl
    rw [hfrac]
    exact fdiv_thousand_err (ms % 1000) (Nat.mod_lt _ (by norm_num))

/-- Witness for C2's amended theorem: the truncation identity at the concrete
timestamp `1 + 1/1024` seconds. -/
theorem time_conversion_truncation_semantics_witness :
    time_to_ms ⟨1, ⟨1, -10⟩⟩ =
      1 * 1000 + (⌊F.val (fmul ⟨1, -10⟩ fThousand)⌋).toNat :=
  time_conversion_truncation_semantics.1 ⟨1, ⟨1, -10⟩⟩
    (by norm_num [F.wf])
    (by
      unfold F.val
      simp only
      rw [show ((-10 : ℤ)) = -((10 : ℕ) : ℤ) by norm_num, zpow_neg, zpow_natCast]
      norm_num)
    (by norm_num)
